import Mathlib

/-!
Verification of the bucketed seq2seq training/decoding orchestration in
`seq2seq/shi_generator.py`.

The program drives a length-bucketed sequence-to-sequence trainer: a
stochastic bucket selector weighted by bucket occupancy, a checkpoint loop
with loss accumulation and plateau-triggered learning-rate decay, a
per-bucket evaluation reporter, and a greedy interactive decoder.  The
definitions below are shallow embeddings of the corresponding Python code;
machine floats are modelled by exact rationals/reals.
-/

/-- Fixed bucket configuration of the program: the ordered list of
(input capacity, output capacity) pairs, line 88. -/
def _buckets : List (ℕ × ℕ) := [(5, 6), (6, 7), (8, 9), (15, 16)]

/-! ## Decode-mode bucket selection (decode, lines 243-249) -/

/-- Scan of the bucket list performed by the `for`/`break` loop: starting at
index `i`, return the index of the first bucket whose input capacity is at
least the token count `l`, or `none` when the loop falls through. -/
def decode_scan (l : ℕ) : ℕ → List (ℕ × ℕ) → Option ℕ
  | _, [] => none
  | i, bucket :: rest => if l ≤ bucket.1 then some i else decode_scan l (i + 1) rest

/-- Decode-mode bucket selection: `bucket_id` starts at the last index and is
overwritten by the first fitting bucket; the Boolean records whether the
truncation warning fires (the `for`/`else` branch, taken exactly when no
bucket fits). -/
def decode_select_bucket (bs : List (ℕ × ℕ)) (l : ℕ) : ℕ × Bool :=
  match decode_scan l 0 bs with
  | some i => (i, false)
  | none => (bs.length - 1, true)

/-! ## End-of-sequence truncation (train lines 194-220, decode lines 260-266) -/

/-- Outcome of showing one sampled example in the Evaluation Reporter, train
lines 199-220: either all three lines are printed, or only the original line
is printed and the block then raises `AttributeError`. -/
inductive ShowTexts where
  | shown (ori_text out_text target_text : List ℕ)
  | attributeError (ori_text : List ℕ)
  deriving DecidableEq, Repr

/-- Per-example output of the Evaluation Reporter, train lines 199-220.
`ori_text` and `target_text` are Python lists, so `xs[:xs.index(EOS_ID)]`
cuts them at the first end-of-sequence id when present.  `out_text`, however,
is a row of the numpy array `np.argmax(output_logits, axis=2).transpose()`
(lines 194 and 201); `EOS_ID in out_text` evaluates fine on an ndarray, but
an ndarray has no `.index` method, so line 212 raises `AttributeError`
whenever the marker is present in the generated output — after the original
line was already printed and before the target line is reached.
`ShowTexts.attributeError` models that raised error; when the marker is
absent the generated row is printed whole. -/
def eval_show_texts (eos : ℕ) (ori out tgt : List ℕ) : ShowTexts :=
  let ori_text := if eos ∈ ori then ori.take (ori.indexOf eos) else ori
  if eos ∈ out then ShowTexts.attributeError ori_text
  else
    let target_text := if eos ∈ tgt then tgt.take (tgt.indexOf eos) else tgt
    ShowTexts.shown ori_text out target_text

/-- Transcription of `np.argmax` on one logit row: the value returned is the
index of the first occurrence of the maximum entry (0 on an empty row). -/
def np_argmax (logit : List ℚ) : ℕ :=
  match logit.max? with
  | some m => logit.indexOf m
  | none => 0

/-- Greedy token-id output of the Decode Loop, lines 260-264: argmax of every
timestep's logits, then cut at the first end-of-sequence id if present. -/
def decode_outputs (eos : ℕ) (output_logits : List (List ℚ)) : List ℕ :=
  let outputs := output_logits.map np_argmax
  if eos ∈ outputs then outputs.take (outputs.indexOf eos) else outputs

/-- Surface-token line emitted by the Decode Loop, line 266: the greedy,
truncated id sequence mapped back through the id-to-word table. -/
def decode_emit (eos : ℕ) (i2w : ℕ → String) (output_logits : List (List ℚ)) :
    List String :=
  (decode_outputs eos output_logits).map i2w

/-! ## Perplexity (train lines 167 and 188-189) -/

/-- Perplexity printed at a checkpoint, line 167:
`math.exp(float(loss)) if loss < 300 else float("inf")`. -/
noncomputable def train_perplexity (loss : ℝ) : EReal :=
  if loss < 300 then ((Real.exp loss : ℝ) : EReal) else ⊤

/-- Perplexity printed per evaluation bucket, lines 188-189:
`math.exp(float(eval_loss)) if eval_loss < 300 else float("inf")`. -/
noncomputable def eval_perplexity (eval_loss : ℝ) : EReal :=
  if eval_loss < 300 then ((Real.exp eval_loss : ℝ) : EReal) else ⊤

/-! ## Learning-rate decay at a checkpoint (train lines 172-174) -/

/-- Plateau test, line 172:
`len(previous_losses) > 2 and loss > max(previous_losses[-3:])`.
`previous_losses[-3:]` is the last three entries, `List.drop (length - 3)`;
the `match` on `max?` reflects that Python's `max` needs a non-empty list,
which the short-circuiting length guard ensures. -/
def lr_decay_condition (previous_losses : List ℚ) (loss : ℚ) : Bool :=
  decide (2 < previous_losses.length) &&
    match (previous_losses.drop (previous_losses.length - 3)).max? with
    | some m => decide (m < loss)
    | none => false

/-- Mutable training state touched by the checkpoint block: the learning rate
and the history of checkpoint losses. -/
structure TrainCheckpointState where
  learning_rate : ℚ
  previous_losses : List ℚ
  deriving DecidableEq

/-- Checkpoint-event update of the learning rate and the loss history, lines
172-174: run the decay op (multiply by the decay factor) once when the plateau
test fires, then append the current loss to the history. -/
def checkpoint_lr_step (decay_factor : ℚ) (s : TrainCheckpointState)
    (loss : ℚ) : TrainCheckpointState :=
  { learning_rate :=
      if lr_decay_condition s.previous_losses loss then
        s.learning_rate * decay_factor
      else s.learning_rate,
    previous_losses := s.previous_losses ++ [loss] }

/-! ## Loss and step-time accumulation (train lines 142, 160-162, 178) -/

/-- One training step's effect on the running (step_time, loss) accumulators,
lines 160-161: each step adds `value / steps_per_checkpoint`, not the raw
value. -/
def accumulate_step (steps_per_checkpoint : ℚ) (acc : ℚ × ℚ)
    (step : ℚ × ℚ) : ℚ × ℚ :=
  (acc.1 + step.1 / steps_per_checkpoint, acc.2 + step.2 / steps_per_checkpoint)

/-- Accumulator value at a checkpoint event, line 178 (`step_time, loss = 0.0, 0.0`,
also the initial value at line 142). -/
def checkpoint_reset : ℚ × ℚ := (0, 0)

/-- Accumulators reached after running the steps of one checkpoint interval,
each step contributing `(duration, step_loss)`. -/
def run_interval (steps_per_checkpoint : ℚ) (steps : List (ℚ × ℚ)) : ℚ × ℚ :=
  steps.foldl (accumulate_step steps_per_checkpoint) checkpoint_reset

/-! ## Evaluation over the development buckets (train lines 180-190) -/

/-- An example is a pair of token-id sequences (source, target). -/
abbrev SeqExample := List ℕ × List ℕ

/-- Observable events of the evaluation loop over the development set. -/
inductive EvalEvent where
  | emptyBucketWarning (bucket_id : ℕ)
  | modelStep (bucket_id : ℕ)
  deriving DecidableEq, Repr

/-- Body of `for bucket_id in xrange(len(_buckets))`, lines 180-190, started at
bucket index `b`: an empty held-out bucket produces only the warning message
and `continue`; a non-empty bucket performs a forward-only model step. -/
def run_dev_eval_from (b : ℕ) : List (List SeqExample) → List EvalEvent
  | [] => []
  | bucket :: rest =>
    (if bucket.isEmpty then EvalEvent.emptyBucketWarning b
     else EvalEvent.modelStep b) :: run_dev_eval_from (b + 1) rest

/-- Event trace of one full evaluation pass over the development set. -/
def run_dev_eval (dev_set : List (List SeqExample)) : List EvalEvent :=
  run_dev_eval_from 0 dev_set

/-! ## Batch Sampler weight mask (spec §4.2; `seq2seq_model.get_batch` is not
under src/) -/

/-- Modelled from the spec: `seq2seq_model.get_batch` (the model class is not
under `src/`) pads the stored target — which ends with the end-of-sequence
id — with the GO id at the front and PAD ids at the end up to the bucket's
output capacity `dsize`. -/
def padded_decoder_input (go pad dsize : ℕ) (tgt : List ℕ) : List ℕ :=
  go :: tgt ++ List.replicate (dsize - tgt.length - 1) pad

/-- Modelled from the spec: the Batch Sampler's weight at timestep `t` is 0
when `t` is the final step or when the shifted prediction target (the decoder
entry at `t + 1`) is the PAD id, and 1 otherwise. -/
def batch_weight (pad dsize : ℕ) (dec : List ℕ) (t : ℕ) : ℚ :=
  if t = dsize - 1 ∨ dec.getD (t + 1) pad = pad then 0 else 1

/-! ## Training-mode bucket selection (train lines 132-139 and 150-152) -/

/-- Cumulative bucket scale, lines 138-139:
`sum(train_bucket_sizes[:i + 1]) / train_total_size`. -/
def train_bucket_scale {α : Type} [LinearOrderedField α] (sizes : List ℕ)
    (i : ℕ) : α :=
  ((sizes.take (i + 1)).sum : α) / ((sizes.sum : ℕ) : α)

/-- The list `train_buckets_scale` of cumulative scales, one per bucket. -/
def train_buckets_scale (α : Type) [LinearOrderedField α]
    (sizes : List ℕ) : List α :=
  (List.range sizes.length).map (fun i => train_bucket_scale sizes i)

/-- Training-mode bucket choice, lines 151-152:
`min([i for i in xrange(len(train_buckets_scale)) if train_buckets_scale[i] > random_number_01])`;
`none` models Python's `min` raising on an empty candidate list. -/
def choose_train_bucket {α : Type} [LinearOrderedField α] (sizes : List ℕ)
    (u : α) : Option ℕ :=
  ((List.range (train_buckets_scale α sizes).length).filter
    (fun i => decide (u < (train_buckets_scale α sizes).getD i 0))).min?

/-! ## Helper lemmas -/

/-- Cutting a list at the index of the first occurrence of `a` is the same as
taking the longest prefix free of `a` (also when `a` is absent: both give the
whole list). -/
lemma take_indexOf_eq_takeWhile {β : Type} [DecidableEq β] (a : β) (l : List β) :
    l.take (l.indexOf a) = l.takeWhile (fun t => t ≠ a) := by
  induction l with
  | nil => rfl
  | cons x xs ih =>
    by_cases h : x = a <;>
      simp [List.indexOf_cons, List.takeWhile_cons, h, bne, ih]

lemma decode_scan_none_iff (l i : ℕ) (bs : List (ℕ × ℕ)) :
    decode_scan l i bs = none ↔ ∀ b ∈ bs, b.1 < l := by
  induction bs generalizing i with
  | nil => simp [decode_scan]
  | cons x rest ih =>
    by_cases h : l ≤ x.1
    · simp [decode_scan, h, ih]
    · simp [decode_scan, h, ih]
      intro
      omega

lemma decode_scan_first (l : ℕ) (bs : List (ℕ × ℕ)) (s i : ℕ)
    (hi : i < bs.length) (hcap : l ≤ (bs.get ⟨i, hi⟩).1)
    (hmin : ∀ j (hj : j < bs.length), j < i → (bs.get ⟨j, hj⟩).1 < l) :
    decode_scan l s bs = some (s + i) := by
  induction bs generalizing s i with
  | nil => exact absurd hi (by simp)
  | cons x rest ih =>
    cases i with
    | zero =>
      have hx : l ≤ x.1 := by simpa using hcap
      simp [decode_scan, hx]
    | succ i =>
      have hx : x.1 < l := by
        have := hmin 0 (by simp) (Nat.succ_pos i)
        simpa using this
      have hi' : i < rest.length := by simpa using hi
      have hcap' : l ≤ (rest.get ⟨i, hi'⟩).1 := by
        simpa [List.get_cons_succ] using hcap
      have hmin' : ∀ j (hj : j < rest.length), j < i → (rest.get ⟨j, hj⟩).1 < l := by
        intro j hj hji
        have := hmin (j + 1) (by simpa using Nat.succ_lt_succ hj) (Nat.succ_lt_succ hji)
        simpa [List.get_cons_succ] using this
      have := ih (s + 1) i hi' hcap' hmin'
      simp only [decode_scan, if_neg (by omega : ¬ l ≤ x.1)]
      rw [this]
      congr 1
      omega

/-! ## Claim theorems: decoding-side behaviour -/

/-- C3: decode-mode bucket selection picks the first bucket (by ascending
capacity) whose input capacity is at least the token count `l`, with no
warning; when no bucket fits it picks the last bucket and raises the
truncation warning; in particular, on the program's bucket list an 8-token
input selects index 2 silently and a 20-token input selects index 3 with a
warning. -/
theorem decode_select_bucket_spec :
    (∀ (bs : List (ℕ × ℕ)) (l i : ℕ) (hi : i < bs.length),
        l ≤ (bs.get ⟨i, hi⟩).1 →
        (∀ j (hj : j < bs.length), j < i → (bs.get ⟨j, hj⟩).1 < l) →
        decode_select_bucket bs l = (i, false)) ∧
    (∀ (bs : List (ℕ × ℕ)) (l : ℕ), (∀ b ∈ bs, b.1 < l) →
        decode_select_bucket bs l = (bs.length - 1, true)) ∧
    decode_select_bucket _buckets 8 = (2, false) ∧
    decode_select_bucket _buckets 20 = (3, true) := by
  refine ⟨?_, ?_, by decide, by decide⟩
  · intro bs l i hi hcap hmin
    have h := decode_scan_first l bs 0 i hi hcap hmin
    simp [decode_select_bucket, h]
  · intro bs l hall
    have h : decode_scan l 0 bs = none := (decode_scan_none_iff l 0 bs).mpr hall
    simp [decode_select_bucket, h]

/-- Witness for C3 at the program's bucket list: capacity 8 at index 2 fits an
8-token input and every earlier capacity is smaller, so index 2 is selected
without a warning; no capacity fits 20 tokens, so the last index is selected
with a warning. -/
theorem decode_select_bucket_spec_witness :
    decode_select_bucket _buckets 8 = (2, false) ∧
    decode_select_bucket _buckets 20 = (3, true) :=
  ⟨decode_select_bucket_spec.1 _buckets 8 2 (by decide) (by decide)
      (by decide),
   decode_select_bucket_spec.2.1 _buckets 20 (by decide)⟩

/-- C5: the claim says all three reported sequences are truncated at the
first end-of-sequence marker when present.  The source's own comment at
lines 210-211 states that intent for the generated output too, but the
generated row is a numpy ndarray without an `.index` method, so with marker 2
the sampled example (source `[5, 2, 7]`, generated `[4, 2, 5]`, target
`[9, 8, 2]`) raises `AttributeError` after printing the truncated source
`[5]`, instead of truncating the generated output; when the marker is absent
from the generated row (`[4, 3, 5]`) no truncation is attempted and the
source and target paths do truncate as claimed. -/
theorem eval_show_texts_raises :
    eval_show_texts 2 [5, 2, 7] [4, 2, 5] [9, 8, 2] =
      ShowTexts.attributeError [5] ∧
    eval_show_texts 2 [5, 2, 7] [4, 3, 5] [9, 8, 2] =
      ShowTexts.shown [5] [4, 3, 5] [9, 8] := by
  decide

/-- Entries strictly before the first occurrence of `a` differ from `a`. -/
lemma getElem_lt_indexOf_ne {β : Type} [DecidableEq β] (a : β) :
    ∀ (l : List β) (j : ℕ) (hj : j < l.length), j < l.indexOf a → l[j] ≠ a := by
  intro l
  induction l with
  | nil =>
    intro j hj
    simp at hj
  | cons x xs ih =>
    intro j hj hlt
    by_cases hx : x = a
    · simp [List.indexOf_cons, hx] at hlt
    · cases j with
      | zero => simpa using hx
      | succ j =>
        simp only [List.indexOf_cons, cond_eq_if, beq_iff_eq, if_neg hx] at hlt
        exact ih j (by simpa using hj) (by omega)

/-- The entry picked by `np_argmax` on a non-empty row is the maximum of the
row, every entry strictly before it is strictly smaller (first occurrence),
and the index is in range. -/
lemma np_argmax_spec (l : List ℚ) (h : l ≠ []) :
    np_argmax l < l.length ∧ (∀ x ∈ l, x ≤ l.getD (np_argmax l) 0) ∧
      ∀ j, j < np_argmax l → l.getD j 0 < l.getD (np_argmax l) 0 := by
  obtain ⟨m, hm⟩ : ∃ m, l.max? = some m := by
    cases hmax : l.max? with
    | none => exact absurd (List.max?_eq_none_iff.mp hmax) h
    | some m => exact ⟨m, rfl⟩
  have hchar := (@List.max?_eq_some_iff ℚ m _ _
    ⟨fun h1 h2 => le_antisymm h1 h2⟩ (fun a => le_refl a)
    (fun a b => max_choice a b) (fun _ _ _ => max_le_iff) l).mp hm
  have hmem : m ∈ l := hchar.1
  have hub : ∀ b ∈ l, b ≤ m := hchar.2
  have hidx : l.indexOf m < l.length := List.indexOf_lt_length.mpr hmem
  have harg : np_argmax l = l.indexOf m := by simp [np_argmax, hm]
  have hgetD : l.getD (l.indexOf m) 0 = m := by
    rw [List.getD_eq_getElem l 0 hidx]
    exact List.getElem_indexOf hidx
  refine ⟨by simpa [harg] using hidx, ?_, ?_⟩
  · intro x hx
    rw [harg, hgetD]
    exact hub x hx
  · intro j hj
    rw [harg] at hj
    have hjlen : j < l.length := lt_trans hj hidx
    have hne : l[j] ≠ m := getElem_lt_indexOf_ne m l j hjlen hj
    have hle : l[j] ≤ m := hub _ (l.getElem_mem hjlen)
    rw [harg, hgetD, List.getD_eq_getElem l 0 hjlen]
    exact lt_of_le_of_ne hle hne

/-- C6: the Decode Loop's emitted sequence is the argmax of the logits at each
output timestep, truncated at the first end-of-sequence id (equivalently, its
longest marker-free prefix), then mapped to surface tokens; and on every
non-empty logit row the chosen id indexes a maximal entry. -/
theorem decode_emit_spec (eos : ℕ) (i2w : ℕ → String)
    (output_logits : List (List ℚ)) :
    decode_emit eos i2w output_logits =
      ((output_logits.map np_argmax).takeWhile (fun t => t ≠ eos)).map i2w ∧
    ∀ l ∈ output_logits, l ≠ [] →
      np_argmax l < l.length ∧ ∀ x ∈ l, x ≤ l.getD (np_argmax l) 0 := by
  constructor
  · by_cases h : eos ∈ output_logits.map np_argmax
    · simp [decode_emit, decode_outputs, h, take_indexOf_eq_takeWhile]
    · simp only [decode_emit, decode_outputs, if_neg h]
      rw [← take_indexOf_eq_takeWhile, List.indexOf_of_not_mem h,
        List.take_length]
  · intro l hl hne
    exact ⟨(np_argmax_spec l hne).1, (np_argmax_spec l hne).2.1⟩

/-- Witness for C6: on the single three-entry logit row `[1, 3, 2]` the greedy
argmax is in range and picks a maximal entry. -/
theorem decode_emit_spec_witness :
    np_argmax [1, 3, 2] < ([1, 3, 2] : List ℚ).length ∧
      ∀ x ∈ ([1, 3, 2] : List ℚ), x ≤ ([1, 3, 2] : List ℚ).getD (np_argmax [1, 3, 2]) 0 :=
  (decode_emit_spec 0 (fun n => toString n) [[1, 3, 2]]).2 [1, 3, 2]
    (by decide) (by decide)

/-- C4: the checkpoint report and the per-bucket evaluation report compute the
same perplexity function; it is `exp loss` for `loss < 300` and exactly `+∞`
for `loss ≥ 300` (in particular at `loss = 300`), with no overflow error. -/
theorem perplexity_spec (loss : ℝ) :
    train_perplexity loss = eval_perplexity loss ∧
    (loss < 300 → train_perplexity loss = ((Real.exp loss : ℝ) : EReal)) ∧
    (300 ≤ loss → train_perplexity loss = ⊤) :=
  ⟨rfl, fun h => if_pos h, fun h => if_neg (not_lt.mpr h)⟩

/-- Witness for C4 at the boundary value 300: the reported perplexity is
exactly positive infinity. -/
theorem perplexity_spec_witness :
    (300 : ℝ) ≤ 300 ∧ train_perplexity 300 = ⊤ :=
  ⟨le_refl 300, (perplexity_spec 300).2.2 (le_refl 300)⟩

/-- Folding the per-step accumulator update over a step list adds the sums of
the normalized contributions to the initial accumulators. -/
lemma foldl_accumulate_step (n : ℚ) (steps : List (ℚ × ℚ)) (init : ℚ × ℚ) :
    steps.foldl (accumulate_step n) init =
      (init.1 + (steps.map Prod.fst).sum / n,
       init.2 + (steps.map Prod.snd).sum / n) := by
  induction steps generalizing init with
  | nil => simp
  | cons s rest ih =>
    rw [List.foldl_cons, ih]
    simp only [accumulate_step, List.map_cons, List.sum_cons, Prod.mk.injEq]
    constructor <;> ring

/-- C7: each step adds `value / interval` to the accumulators, so after exactly
`interval` steps the loss accumulator is the arithmetic mean of the step losses
(and the time accumulator the mean of the step durations); the checkpoint
event resets both accumulators to exactly zero. -/
theorem interval_accumulation_mean (interval : ℕ)
    (steps : List (ℚ × ℚ)) (hlen : steps.length = interval) :
    (run_interval (interval : ℚ) steps).2 =
        (steps.map Prod.snd).sum / (steps.length : ℚ) ∧
    (run_interval (interval : ℚ) steps).1 =
        (steps.map Prod.fst).sum / (steps.length : ℚ) ∧
    checkpoint_reset = (0, 0) := by
  have hcast : ((steps.length : ℕ) : ℚ) = (interval : ℚ) := by
    rw [hlen]
  rw [run_interval, foldl_accumulate_step, hcast]
  exact ⟨by simp [checkpoint_reset], by simp [checkpoint_reset], rfl⟩

/-- Witness for C7: with interval 2 and step pairs (1, 3) and (2, 5) the loss
accumulator ends at the mean of the step losses. -/
theorem interval_accumulation_mean_witness :
    ([((1 : ℚ), (3 : ℚ)), (2, 5)] : List (ℚ × ℚ)).length = 2 ∧
      (run_interval ((2 : ℕ) : ℚ) [((1 : ℚ), (3 : ℚ)), (2, 5)]).2 =
        (([((1 : ℚ), (3 : ℚ)), (2, 5)] : List (ℚ × ℚ)).map Prod.snd).sum /
          ((([((1 : ℚ), (3 : ℚ)), (2, 5)] : List (ℚ × ℚ)).length : ℕ) : ℚ) :=
  ⟨by decide,
    (interval_accumulation_mean 2 [((1 : ℚ), (3 : ℚ)), (2, 5)]
      (by decide)).1⟩

/-- Characterization of `max?` on rational lists: the greatest member. -/
lemma max?_rat_char (l : List ℚ) (m : ℚ) :
    l.max? = some m ↔ m ∈ l ∧ ∀ b ∈ l, b ≤ m :=
  @List.max?_eq_some_iff ℚ m _ _ ⟨fun h1 h2 => le_antisymm h1 h2⟩
    (fun a => le_refl a) (fun a b => max_choice a b) (fun _ _ _ => max_le_iff) l

/-- C2: the learning-rate decay fires if and only if at least 3 checkpoint
losses were already recorded and the current loss strictly exceeds every one
of the last 3 (equivalently their maximum); the decay factor is applied
exactly once when it fires and not at all otherwise; the current loss is
appended to the history only after the test. -/
theorem lr_decay_spec (decay_factor : ℚ) (s : TrainCheckpointState) (loss : ℚ) :
    (lr_decay_condition s.previous_losses loss = true ↔
      3 ≤ s.previous_losses.length ∧
        ∀ x ∈ s.previous_losses.drop (s.previous_losses.length - 3), x < loss) ∧
    (checkpoint_lr_step decay_factor s loss).previous_losses =
      s.previous_losses ++ [loss] ∧
    (lr_decay_condition s.previous_losses loss = true →
      (checkpoint_lr_step decay_factor s loss).learning_rate =
        s.learning_rate * decay_factor) ∧
    (lr_decay_condition s.previous_losses loss = false →
      (checkpoint_lr_step decay_factor s loss).learning_rate =
        s.learning_rate) := by
  refine ⟨?_, rfl, ?_, ?_⟩
  · constructor
    · intro h
      rw [lr_decay_condition, Bool.and_eq_true] at h
      obtain ⟨h1, h2⟩ := h
      have hlen : 3 ≤ s.previous_losses.length := by
        have := of_decide_eq_true h1
        omega
      refine ⟨hlen, ?_⟩
      intro x hx
      cases hmax : (s.previous_losses.drop (s.previous_losses.length - 3)).max? with
      | none =>
        rw [hmax] at h2
        exact absurd h2 (by simp)
      | some m =>
        rw [hmax] at h2
        have hm := (max?_rat_char _ m).mp hmax
        exact lt_of_le_of_lt (hm.2 x hx) (of_decide_eq_true h2)
    · rintro ⟨hlen, hall⟩
      have hne : s.previous_losses.drop (s.previous_losses.length - 3) ≠ [] := by
        have hd : (s.previous_losses.drop (s.previous_losses.length - 3)).length
            = 3 := by
          rw [List.length_drop]
          omega
        intro h0
        rw [h0] at hd
        simp at hd
      cases hmax : (s.previous_losses.drop (s.previous_losses.length - 3)).max? with
      | none => exact absurd (List.max?_eq_none_iff.mp hmax) hne
      | some m =>
        have hm := (max?_rat_char _ m).mp hmax
        rw [lr_decay_condition, Bool.and_eq_true, hmax]
        exact ⟨decide_eq_true (by omega), decide_eq_true (hall m hm.1)⟩
  · intro h
    simp [checkpoint_lr_step, h]
  · intro h
    simp [checkpoint_lr_step, h]

/-- Witness for C2: with recorded history `[1, 2, 3]` a current loss of `4`
exceeds the maximum of the last 3 recorded losses, so the decay fires and the
learning rate is multiplied by the decay factor once. -/
theorem lr_decay_spec_witness :
    (lr_decay_condition [1, 2, 3] 4 = true ↔
      3 ≤ ([1, 2, 3] : List ℚ).length ∧
        ∀ x ∈ ([1, 2, 3] : List ℚ).drop
            (([1, 2, 3] : List ℚ).length - 3), x < (4 : ℚ)) ∧
    (checkpoint_lr_step 2 ⟨5, [1, 2, 3]⟩ 4).learning_rate = (5 : ℚ) * 2 :=
  ⟨(lr_decay_spec 2 ⟨5, [1, 2, 3]⟩ 4).1,
   (lr_decay_spec 2 ⟨5, [1, 2, 3]⟩ 4).2.2.1 (by decide)⟩

/-- The evaluation loop emits exactly one event per development bucket. -/
lemma run_dev_eval_from_length (b : ℕ) (ds : List (List SeqExample)) :
    (run_dev_eval_from b ds).length = ds.length := by
  induction ds generalizing b with
  | nil => rfl
  | cons x rest ih => simp [run_dev_eval_from, ih]

/-- The event recorded for a bucket is the skip warning when the bucket is
empty and a model step otherwise. -/
lemma run_dev_eval_from_getD (ds : List (List SeqExample)) :
    ∀ (b k : ℕ), k < ds.length →
      (run_dev_eval_from b ds).getD k (EvalEvent.emptyBucketWarning 0) =
        if (ds.getD k []).isEmpty then EvalEvent.emptyBucketWarning (b + k)
        else EvalEvent.modelStep (b + k) := by
  induction ds with
  | nil =>
    intro b k hk
    simp at hk
  | cons x rest ih =>
    intro b k hk
    cases k with
    | zero => by_cases hx : x.isEmpty <;> simp [run_dev_eval_from, hx]
    | succ k =>
      have h := ih (b + 1) k (by simpa using hk)
      rw [show b + (k + 1) = (b + 1) + k by omega]
      simpa [run_dev_eval_from] using h

/-- C8: the Evaluation Reporter processes every bucket (one event each); an
empty held-out bucket yields only the skip warning and no model step, while a
non-empty bucket yields a model step. -/
theorem empty_dev_bucket_skipped (dev_set : List (List SeqExample)) (b : ℕ)
    (hb : b < dev_set.length) :
    (run_dev_eval dev_set).length = dev_set.length ∧
    (dev_set.getD b [] = [] →
      (run_dev_eval dev_set).getD b (EvalEvent.emptyBucketWarning 0) =
        EvalEvent.emptyBucketWarning b) ∧
    (dev_set.getD b [] ≠ [] →
      (run_dev_eval dev_set).getD b (EvalEvent.emptyBucketWarning 0) =
        EvalEvent.modelStep b) := by
  have h := run_dev_eval_from_getD dev_set 0 b hb
  rw [Nat.zero_add] at h
  refine ⟨run_dev_eval_from_length 0 dev_set, ?_, ?_⟩ <;> intro hx
  · rw [run_dev_eval, h, if_pos (List.isEmpty_iff.mpr hx)]
  · rw [run_dev_eval, h,
      if_neg (fun hc => hx (List.isEmpty_iff.mp hc))]

/-- Witness for C8 on a three-bucket development set whose middle bucket is
empty: the middle bucket is skipped with a warning, its neighbours get model
steps, and the trace covers all three buckets. -/
theorem empty_dev_bucket_skipped_witness :
    ([[([1], [2])], [], [([3], [4])]] : List (List SeqExample)).getD 1 [] = [] ∧
      (run_dev_eval [[([1], [2])], [], [([3], [4])]]).getD 1
          (EvalEvent.emptyBucketWarning 0) = EvalEvent.emptyBucketWarning 1 ∧
      (run_dev_eval [[([1], [2])], [], [([3], [4])]]).getD 2
          (EvalEvent.emptyBucketWarning 0) = EvalEvent.modelStep 2 ∧
      (run_dev_eval [[([1], [2])], [], [([3], [4])]]).length = 3 :=
  ⟨by decide,
   (empty_dev_bucket_skipped [[([1], [2])], [], [([3], [4])]] 1
      (by decide)).2.1 (by decide),
   (empty_dev_bucket_skipped [[([1], [2])], [], [([3], [4])]] 2
      (by decide)).2.2 (by decide),
   (empty_dev_bucket_skipped [[([1], [2])], [], [([3], [4])]] 0 (by decide)).1⟩

/-- C9 (modelled from the spec, as `seq2seq_model.get_batch` is not under
src/): for every stored target ending in the end-of-sequence id that fits its
bucket, the weight at the position immediately following the last real
content token — the position where the padded target row holds the
end-of-sequence id, not padding — is 0. -/
theorem weight_after_true_end_zero (go pad eos dsize : ℕ) (tgt : List ℕ)
    (hne : tgt ≠ []) (hlast : tgt.getLast hne = eos)
    (hfit : tgt.length < dsize) :
    batch_weight pad dsize (padded_decoder_input go pad dsize tgt)
        tgt.length = 0 ∧
    (padded_decoder_input go pad dsize tgt).getD tgt.length pad = eos := by
  have hlen1 : 1 ≤ tgt.length := by
    cases tgt with
    | nil => exact absurd rfl hne
    | cons x xs => simp
  constructor
  · rw [batch_weight]
    by_cases hend : tgt.length = dsize - 1
    · exact if_pos (Or.inl hend)
    · refine if_pos (Or.inr ?_)
      rw [padded_decoder_input, List.cons_append]
      simp only [List.getD_cons_succ]
      have hrep : 1 ≤ dsize - tgt.length - 1 := by omega
      have hlt : tgt.length <
          (tgt ++ List.replicate (dsize - tgt.length - 1) pad).length := by
        rw [List.length_append, List.length_replicate]
        omega
      rw [List.getD_eq_getElem _ pad hlt,
        List.getElem_append_right (le_refl tgt.length)]
      exact List.getElem_replicate pad _
  · rw [padded_decoder_input, List.cons_append]
    rw [show tgt.length = (tgt.length - 1) + 1 by omega]
    simp only [List.getD_cons_succ]
    rw [show (tgt.length - 1) + 1 = tgt.length by omega]
    have hlt : tgt.length - 1 <
        (tgt ++ List.replicate (dsize - tgt.length - 1) pad).length := by
      rw [List.length_append, List.length_replicate]
      omega
    rw [List.getD_eq_getElem _ pad hlt,
      List.getElem_append_left (by omega : tgt.length - 1 < tgt.length)]
    rw [List.getLast_eq_getElem] at hlast
    exact hlast

/-- Witness for C9: target `[7, 8, 2]` (content `[7, 8]` followed by the
end-of-sequence id 2) in a bucket of output capacity 6 has weight 0 at
position 3, where the padded target row still holds the marker id 2. -/
theorem weight_after_true_end_zero_witness :
    ([7, 8, 2] : List ℕ) ≠ [] ∧ ([7, 8, 2] : List ℕ).length < 6 ∧
      batch_weight 0 6 (padded_decoder_input 1 0 6 [7, 8, 2])
          ([7, 8, 2] : List ℕ).length = 0 :=
  ⟨by decide, by decide,
    (weight_after_true_end_zero 1 0 2 6 [7, 8, 2] (by decide) (by decide)
      (by decide)).1⟩

/-- The minimum of the indices below `n` satisfying `p` is `i` exactly when
`i` is below `n`, satisfies `p`, and no smaller index does. -/
lemma min?_filter_range_eq_some (p : ℕ → Bool) (n i : ℕ) :
    ((List.range n).filter p).min? = some i ↔
      i < n ∧ p i = true ∧ ∀ j, j < i → p j = false := by
  rw [List.min?_eq_some_iff']
  constructor
  · rintro ⟨hmem, hmin⟩
    rw [List.mem_filter, List.mem_range] at hmem
    refine ⟨hmem.1, hmem.2, ?_⟩
    intro j hj
    by_contra hpj
    rw [Bool.not_eq_false] at hpj
    have hjmem : j ∈ (List.range n).filter p :=
      List.mem_filter.mpr ⟨List.mem_range.mpr (lt_trans hj hmem.1), hpj⟩
    have := hmin j hjmem
    omega
  · rintro ⟨hn, hp, hfirst⟩
    refine ⟨List.mem_filter.mpr ⟨List.mem_range.mpr hn, hp⟩, ?_⟩
    intro b hb
    rw [List.mem_filter, List.mem_range] at hb
    by_contra hlt
    push_neg at hlt
    have := hfirst b (by omega)
    rw [hb.2] at this
    exact absurd this (by simp)

lemma train_buckets_scale_length (α : Type) [LinearOrderedField α]
    (sizes : List ℕ) : (train_buckets_scale α sizes).length = sizes.length := by
  simp [train_buckets_scale]

lemma train_buckets_scale_getD {α : Type} [LinearOrderedField α]
    (sizes : List ℕ) (i : ℕ) (hi : i < sizes.length) :
    (train_buckets_scale α sizes).getD i 0 = train_bucket_scale sizes i := by
  rw [train_buckets_scale, List.getD_eq_getElem _ _ (by simpa),
    List.getElem_map, List.getElem_range]

/-- Characterization of the selector: it returns `some i` exactly when `i` is
in range, the cumulative scale at `i` exceeds the draw, and no earlier
cumulative scale does. -/
lemma choose_train_bucket_eq_some {α : Type} [LinearOrderedField α]
    (sizes : List ℕ) (u : α) (i : ℕ) :
    choose_train_bucket sizes u = some i ↔
      i < sizes.length ∧ u < train_bucket_scale sizes i ∧
        ∀ j, j < i → train_bucket_scale (α := α) sizes j ≤ u := by
  rw [choose_train_bucket, train_buckets_scale_length,
    min?_filter_range_eq_some]
  constructor
  · rintro ⟨hn, hp, hfirst⟩
    rw [train_buckets_scale_getD sizes i hn] at hp
    refine ⟨hn, of_decide_eq_true hp, ?_⟩
    intro j hj
    have hj2 := hfirst j hj
    rw [train_buckets_scale_getD sizes j (lt_trans hj hn)] at hj2
    exact not_lt.mp (of_decide_eq_false hj2)
  · rintro ⟨hn, hlt, hall⟩
    refine ⟨hn, ?_, ?_⟩
    · rw [train_buckets_scale_getD sizes i hn]
      exact decide_eq_true hlt
    · intro j hj
      rw [train_buckets_scale_getD sizes j (lt_trans hj hn)]
      exact decide_eq_false (not_lt.mpr (hall j hj))

/-- Sums of prefixes of a list of naturals grow with the prefix length. -/
lemma sum_take_le_sum_take (l : List ℕ) (j i : ℕ) (h : j ≤ i) :
    (l.take j).sum ≤ (l.take i).sum := by
  have h1 : (l.take i).take j = l.take j := by
    rw [List.take_take, min_eq_left h]
  calc (l.take j).sum = ((l.take i).take j).sum := by rw [h1]
    _ ≤ ((l.take i).take j).sum + ((l.take i).drop j).sum := Nat.le_add_right _ _
    _ = (l.take i).sum := List.sum_take_add_sum_drop _ _

lemma sum_take_le_sum (l : List ℕ) (k : ℕ) : (l.take k).sum ≤ l.sum := by
  calc (l.take k).sum ≤ (l.take k).sum + (l.drop k).sum := Nat.le_add_right _ _
    _ = l.sum := List.sum_take_add_sum_drop _ _

/-- The cumulative scales are monotone in the bucket index. -/
lemma train_bucket_scale_mono {α : Type} [LinearOrderedField α]
    (sizes : List ℕ) (j i : ℕ) (h : j ≤ i) :
    train_bucket_scale (α := α) sizes j ≤ train_bucket_scale sizes i := by
  rcases Nat.eq_zero_or_pos sizes.sum with h0 | hpos
  · rw [train_bucket_scale, train_bucket_scale, h0]
    simp
  · rw [train_bucket_scale, train_bucket_scale]
    refine (div_le_div_iff_of_pos_right ?_).mpr ?_
    · exact_mod_cast hpos
    · exact_mod_cast sum_take_le_sum_take sizes (j + 1) (i + 1) (by omega)

lemma train_bucket_scale_le_one {α : Type} [LinearOrderedField α]
    (sizes : List ℕ) (htot : 0 < sizes.sum) (i : ℕ) :
    train_bucket_scale (α := α) sizes i ≤ 1 := by
  rw [train_bucket_scale, div_le_one (by exact_mod_cast htot)]
  exact_mod_cast sum_take_le_sum sizes (i + 1)

/-- With a positive total, the final cumulative scale is exactly 1. -/
lemma train_bucket_scale_last {α : Type} [LinearOrderedField α]
    (sizes : List ℕ) (htot : 0 < sizes.sum) :
    train_bucket_scale (α := α) sizes (sizes.length - 1) = 1 := by
  have hlen : 0 < sizes.length := by
    rcases sizes with _ | ⟨x, xs⟩
    · simp at htot
    · simp
  rw [train_bucket_scale, List.take_of_length_le (by omega), div_self]
  exact_mod_cast Nat.pos_iff_ne_zero.mp htot

/-- The draws in `[0, 1)` on which the selector returns bucket `i` form the
interval from the previous cumulative scale to the cumulative scale at `i`. -/
lemma choose_set_eq_Ico (sizes : List ℕ) (htot : 0 < sizes.sum) (i : ℕ)
    (hi : i < sizes.length) :
    {u : ℝ | u ∈ Set.Ico (0 : ℝ) 1 ∧ choose_train_bucket sizes u = some i} =
      Set.Ico (((sizes.take i).sum : ℝ) / ((sizes.sum : ℕ) : ℝ))
        (train_bucket_scale sizes i) := by
  have hpos : (0 : ℝ) < ((sizes.sum : ℕ) : ℝ) := by exact_mod_cast htot
  ext u
  simp only [Set.mem_setOf_eq, Set.mem_Ico]
  rw [choose_train_bucket_eq_some]
  constructor
  · rintro ⟨⟨h0, _⟩, _, hlt, hall⟩
    refine ⟨?_, hlt⟩
    cases i with
    | zero => simpa using h0
    | succ k =>
      have hk := hall k (Nat.lt_succ_self k)
      rw [train_bucket_scale] at hk
      exact hk
  · rintro ⟨hpre, hlt⟩
    have h0le : (0 : ℝ) ≤ ((sizes.take i).sum : ℝ) / ((sizes.sum : ℕ) : ℝ) :=
      div_nonneg (by positivity) (le_of_lt hpos)
    refine ⟨⟨le_trans h0le hpre,
      lt_of_lt_of_le hlt (train_bucket_scale_le_one sizes htot i)⟩,
      hi, hlt, ?_⟩
    intro j hj
    refine le_trans ?_ hpre
    rw [train_bucket_scale]
    exact (div_le_div_iff_of_pos_right hpos).mpr
      (by exact_mod_cast sum_take_le_sum_take sizes (j + 1) i (by omega))

/-- C1: the training-mode selector builds the cumulative scales and returns
the smallest index whose scale exceeds the uniform draw; consequently the
Lebesgue measure of the draws in `[0, 1)` that select bucket `i` is exactly
`c_i / total`, the bucket's share of the training population. -/
theorem train_bucket_selection_measure (sizes : List ℕ) (htot : 0 < sizes.sum)
    (i : ℕ) (hi : i < sizes.length) :
    (∀ u : ℝ, (choose_train_bucket sizes u = some i ↔
        i < sizes.length ∧ u < train_bucket_scale sizes i ∧
          ∀ j, j < i → train_bucket_scale (α := ℝ) sizes j ≤ u)) ∧
    MeasureTheory.volume
        {u : ℝ | u ∈ Set.Ico (0 : ℝ) 1 ∧ choose_train_bucket sizes u = some i} =
      ENNReal.ofReal ((sizes.getD i 0 : ℝ) / ((sizes.sum : ℕ) : ℝ)) := by
  refine ⟨fun u => choose_train_bucket_eq_some sizes u i, ?_⟩
  have hgetD : sizes.getD i 0 = sizes[i] := List.getD_eq_getElem sizes 0 hi
  rw [choose_set_eq_Ico sizes htot i hi, Real.volume_Ico, train_bucket_scale,
    List.sum_take_succ _ i hi, hgetD]
  congr 1
  push_cast
  ring

/-- Witness for C1 on the occupancy vector `[1, 2, 1]`: the set of draws in
`[0, 1)` selecting bucket 1 has measure `2 / 4`. -/
theorem train_bucket_selection_measure_witness :
    0 < ([1, 2, 1] : List ℕ).sum ∧ 1 < ([1, 2, 1] : List ℕ).length ∧
      MeasureTheory.volume
          {u : ℝ | u ∈ Set.Ico (0 : ℝ) 1 ∧
            choose_train_bucket [1, 2, 1] u = some 1} =
        ENNReal.ofReal ((([1, 2, 1] : List ℕ).getD 1 0 : ℝ) /
          ((([1, 2, 1] : List ℕ).sum : ℕ) : ℝ)) :=
  ⟨by decide, by decide,
    (train_bucket_selection_measure [1, 2, 1] (by decide) 1 (by decide)).2⟩

/-- C10: with a positive total occupancy the last cumulative scale is exactly
1, so for every draw in `[0, 1)` some scale exceeds the draw and the selector
never takes the minimum of an empty collection. -/
theorem train_bucket_selection_total (sizes : List ℕ) (htot : 0 < sizes.sum) :
    train_bucket_scale (α := ℝ) sizes (sizes.length - 1) = 1 ∧
    ∀ u : ℝ, u ∈ Set.Ico (0 : ℝ) 1 →
      (choose_train_bucket sizes u).isSome = true := by
  have hlast := train_bucket_scale_last (α := ℝ) sizes htot
  have hlen : 0 < sizes.length := by
    rcases sizes with _ | ⟨x, xs⟩
    · simp at htot
    · simp
  refine ⟨hlast, ?_⟩
  rintro u ⟨hu0, hu1⟩
  rw [Option.isSome_iff_ne_none, choose_train_bucket]
  intro hnone
  rw [List.min?_eq_none_iff] at hnone
  have hmem : (sizes.length - 1) ∈
      (List.range (train_buckets_scale ℝ sizes).length).filter
        (fun i => decide (u < (train_buckets_scale ℝ sizes).getD i 0)) := by
    rw [List.mem_filter, List.mem_range, train_buckets_scale_length]
    refine ⟨by omega, ?_⟩
    rw [train_buckets_scale_getD sizes _ (by omega)]
    exact decide_eq_true (by rw [hlast]; exact hu1)
  rw [hnone] at hmem
  simp at hmem

/-- Witness for C10: with the single-bucket occupancy `[2]` and the draw 0 the
selector returns an index. -/
theorem train_bucket_selection_total_witness :
    0 < ([2] : List ℕ).sum ∧ (choose_train_bucket [2] (0 : ℝ)).isSome = true :=
  ⟨by decide, (train_bucket_selection_total [2] (by decide)).2 0
    (Set.mem_Ico.mpr ⟨le_refl 0, zero_lt_one⟩)⟩
